import Mathlib

/-!
# image-tag-and-search: the label index of `main.go`

A shallow embedding of the index pipeline of `main.go` (list fetch, classifier
response decoding, index build, stable sort, persistence, lookup) and proofs of
its specified properties.

Conventions of the embedding

* A Go `string` is a byte sequence: `GoString` is a list of byte values.
* A `float64` score is embedded in `ℚ`.  Every score the program handles is
  decoded from a JSON number and therefore finite; on finite values the Go
  comparison `>` is the order of `ℚ`.  NaN and the infinities have no JSON
  form and are not represented.
* A Go `map[string]V` is an association list without repeated keys (`GoMap`);
  the order of the entries stands for an iteration order and no statement
  depends on it.
* `log.Fatalln` and run-time panics end the process; functions that can reach
  them return `Except Abort _`.
* The network and the file system are explicit arguments (`Env`, `FS`).
-/

namespace ImageSearch

/-! ## Strings -/

/-- A Go string: a sequence of bytes (each below 256). -/
abbrev GoString := List Nat

/-- The bytes of an ASCII literal of the source text. -/
def lit (s : String) : GoString := s.toList.map Char.toNat

/-! ## Go maps keyed by strings -/

/-- Entry update on an association list: `m[k] = v`.  An existing key keeps
its place, a new key is added at the end. -/
def assocSet {V : Type} : List (GoString × V) → GoString → V → List (GoString × V)
  | [], k, v => [(k, v)]
  | (k', v') :: rest, k, v =>
    if k' = k then (k', v) :: rest else (k', v') :: assocSet rest k v

/-- A Go `map[string]V`: finitely many entries, each key at most once. -/
structure GoMap (V : Type) where
  entries : List (GoString × V)
  nodup : (entries.map Prod.fst).Nodup
deriving DecidableEq

namespace GoMap

variable {V : Type}

/-- Result of `make(map[string]V)`. -/
def empty : GoMap V := ⟨[], List.nodup_nil⟩

/-- Lookup `v, ok := m[k]`: `none` stands for `ok == false`. -/
def get (m : GoMap V) (k : GoString) : Option V := m.entries.lookup k

/-- Assignment `m[k] = v`. -/
def set (m : GoMap V) (k : GoString) (v : V) : GoMap V :=
  ⟨assocSet m.entries k v, by
    have hkeys : ∀ l : List (GoString × V), (assocSet l k v).map Prod.fst =
        if k ∈ l.map Prod.fst then l.map Prod.fst else l.map Prod.fst ++ [k] := by
      intro l
      induction l with
      | nil => simp [assocSet]
      | cons e rest ih =>
        obtain ⟨k', v'⟩ := e
        by_cases hk : k' = k
        · simp [assocSet, hk]
        · have hk' : ¬ k = k' := fun h => hk h.symm
          by_cases hmem : k ∈ rest.map Prod.fst
          · simp only [assocSet, hk, if_false, List.map_cons, ih, hmem, if_true,
              List.mem_cons, or_true]
          · simp only [assocSet, hk, if_false, List.map_cons, ih, hmem,
              List.mem_cons, hk', or_self, List.cons_append]
    rw [hkeys]
    split
    · exact m.nodup
    · rename_i hmem
      exact List.Nodup.append m.nodup (List.nodup_singleton k)
        (by
          intro a ha hb
          rw [List.mem_singleton] at hb
          exact hmem (hb ▸ ha))⟩

end GoMap

/-! ## Data model (`main.go` lines 18-25, 191-195) -/

/-- Go struct `IndexItem`. -/
structure IndexItem where
  Image : GoString
  Score : ℚ
deriving DecidableEq

/-- Go struct `Index`. -/
structure Index where
  Terms : GoMap (List IndexItem)
deriving DecidableEq

/-- Go struct `Match`. -/
structure Match where
  URL : GoString
  Key : GoString
  Score : ℚ
deriving DecidableEq

/-! ## `sort.SliceStable` -/

/-- Inner loop of the library insertion sort,
`for j := i; j > a && less(j, j-1); j-- { swap(j, j-1) }`:
the element `x` at position `i` moves left past every neighbour it is `less`
than.  The second argument lists the elements to the left of `x`, nearest
first. -/
def siftLeft {α : Type} (less : α → α → Bool) (x : α) : List α → List α
  | [] => [x]
  | y :: before => if less x y then y :: siftLeft less x before else x :: y :: before

/-- Outer loop of the library insertion sort, `for i := a + 1; i < b; i++`.
The first argument is the processed part of the slice, last element first. -/
def insertionSort {α : Type} (less : α → α → Bool) : List α → List α → List α
  | done, [] => done.reverse
  | done, x :: rest => insertionSort less (siftLeft less x done) rest

/-- Model of `sort.SliceStable(x, less)` of the Go standard library.  The
library sorts blocks of 20 elements by insertion sort and then merges
neighbouring blocks in place, keeping equal elements in their original order.
For a `less` that is a strict weak order the stably sorted arrangement of a
slice is unique (`stable_sort_unique` and `SliceStable_unique` below), so the
library returns the list that insertion sort over the whole slice returns;
that is the definition here, and for slices of at most 20 elements it is the
library code itself. -/
def SliceStable {α : Type} (less : α → α → Bool) (x : List α) : List α :=
  insertionSort less [] x

/-- The closure `func(i, j int) bool { return items[i].Score > items[j].Score }`
of `Index.sort`, as a function of the two elements compared. -/
def scoreLess (a b : IndexItem) : Bool := decide (a.Score > b.Score)

/-! ## `Index.sort` (`main.go` lines 180-188) -/

namespace Index

/-- Lookup `index.Terms[k]` with the `ok` flag. -/
def get (index : Index) (k : GoString) : Option (List IndexItem) := index.Terms.get k

/-- Method `func (index *Index) sort()`: ranges over the entries of
`index.Terms`, sorts each list and stores it back under its own key. -/
def sort (index : Index) : Index :=
  index.Terms.entries.foldl
    (fun acc e => { Terms := acc.Terms.set e.1 (SliceStable scoreLess e.2) }) index

end Index

/-! ## Decoded JSON values and process exits -/

/-- A JSON value.  It is both the content of a JSON document and the value
`json.Decoder.Decode` stores into an `interface{}`: `nil`, `bool`, `float64`,
`string`, `[]interface{}` and `map[string]interface{}`. -/
inductive JSON where
  | null
  | bool (b : Bool)
  | num (q : ℚ)
  | str (s : GoString)
  | arr (elems : List JSON)
  | obj (members : List (GoString × JSON))

/-- Index expression `m[k]` on a `map[string]interface{}`: the stored value,
or `nil` when the key is absent. -/
def mapIndex (m : List (GoString × JSON)) (k : GoString) : JSON :=
  (m.lookup k).getD JSON.null

/-- Ways the process ends early: `log.Fatalln` (exit status 1) and a
run-time panic (failed type assertion, index out of range). -/
inductive Abort where
  | fatal
  | panic
deriving DecidableEq

/-! ## `makeRequest` (`main.go` lines 210-293) -/

/-- The loop `for _, concept := range concepts` of `makeRequest`; the second
argument is the slice `matches` built so far.  Each type assertion is the
panicking form. -/
def conceptLoop (url : GoString) : List JSON → List Match → Except Abort (List Match)
  | [], found => .ok found
  | concept :: rest, found =>
    match concept with
    | .obj concept2 =>
      match mapIndex concept2 (lit "value") with
      | .num score =>
        match mapIndex concept2 (lit "name") with
        | .str key => conceptLoop url rest (found ++ [{ URL := url, Key := key, Score := score }])
        | _ => .error .panic
      | _ => .error .panic
    | _ => .error .panic

/-- Lines 272-292 of `makeRequest`: walk the decoded `result` down to
`outputs[0].data.concepts` and convert the concepts. -/
def extractMatches (url : GoString) (result : List (GoString × JSON)) :
    Except Abort (List Match) :=
  match mapIndex result (lit "outputs") with
  | .arr outputs =>
    match outputs with
    | [] => .error .panic
    | .obj outputs_0 :: _ =>
      match mapIndex outputs_0 (lit "data") with
      | .obj data =>
        match mapIndex data (lit "concepts") with
        | .arr concepts => conceptLoop url concepts []
        | _ => .ok []
      | _ => .error .panic
    | _ :: _ => .error .panic
  | _ => .error .panic

/-- Function `makeRequest`.  The HTTP exchange with the classifier is the
argument `post`: for an image reference it gives `none` when `client.Do`
fails (then `log.Fatalln`), and otherwise the map `result` left by
`Decode(&result)` (the empty map when nothing could be decoded).  Building
the request from constant parts cannot fail. -/
def makeRequest (post : GoString → Option (List (GoString × JSON))) (url : GoString) :
    Except Abort (List Match) :=
  match post url with
  | none => .error .fatal
  | some result => extractMatches url result

/-! ## `BuildIndex` (`main.go` lines 130-146) -/

/-- Body of the loop `for _, match := range matches` of `BuildIndex`. -/
def addMatch (url : GoString) (index : Index) (m : Match) : Index :=
  let item : IndexItem := { Image := url, Score := m.Score }
  let index1 : Index :=
    if (index.Terms.get m.Key).isNone then { Terms := index.Terms.set m.Key [] } else index
  { Terms := index1.Terms.set m.Key ((index1.Terms.get m.Key).getD [] ++ [item]) }

/-- Function `BuildIndex`, with the classifier call as an argument. -/
def BuildIndex (request : GoString → Except Abort (List Match)) (url : GoString)
    (index : Index) : Except Abort Index :=
  match request url with
  | .error e => .error e
  | .ok found => .ok (found.foldl (addMatch url) index)

/-- The loop `for i, url := range urls { BuildIndex(url, &index) }` of
`rebuildIndex`. -/
def buildPass (request : GoString → Except Abort (List Match)) :
    List GoString → Index → Except Abort Index
  | [], index => .ok index
  | url :: rest, index =>
    match BuildIndex request url index with
    | .error e => .error e
    | .ok index1 => buildPass request rest index1

/-! ## `encoding/json` on the `Index` type -/

/-- Continuation byte of a UTF-8 sequence. -/
def isCont (b : Nat) : Bool := 0x80 ≤ b && b ≤ 0xBF

/-- Size in bytes of the well-formed UTF-8 sequence at the head of `s`, or `0`
when the head byte does not start one (`utf8.DecodeRuneInString` then yields
`RuneError` with width 1).  The ranges are those of the library table:
overlong forms, surrogates and values above U+10FFFF are rejected. -/
def runeWidth : GoString → Nat
  | [] => 0
  | b0 :: rest =>
    if b0 < 0x80 then 1
    else if 0xC2 ≤ b0 && b0 ≤ 0xDF then
      match rest with
      | b1 :: _ => if isCont b1 then 2 else 0
      | [] => 0
    else if 0xE0 ≤ b0 && b0 ≤ 0xEF then
      match rest with
      | b1 :: b2 :: _ =>
        if (if b0 = 0xE0 then 0xA0 else 0x80) ≤ b1 && b1 ≤ (if b0 = 0xED then 0x9F else 0xBF)
            && isCont b2 then 3 else 0
      | _ => 0
    else if 0xF0 ≤ b0 && b0 ≤ 0xF4 then
      match rest with
      | b1 :: b2 :: b3 :: _ =>
        if (if b0 = 0xF0 then 0x90 else 0x80) ≤ b1 && b1 ≤ (if b0 = 0xF4 then 0x8F else 0xBF)
            && isCont b2 && isCont b3 then 4 else 0
      | _ => 0
    else 0

/-- Scan of a string by the JSON string encoder; the first argument counts
the bytes still to copy from the sequence being read.  A byte that starts no
well-formed sequence is replaced by U+FFFD (bytes EF BF BD). -/
def coerceFrom : Nat → GoString → GoString
  | _, [] => []
  | k + 1, b :: rest => b :: coerceFrom k rest
  | 0, b :: rest =>
    match runeWidth (b :: rest) with
    | 0 => 0xEF :: 0xBF :: 0xBD :: coerceFrom 0 rest
    | w + 1 => b :: coerceFrom w rest

/-- The string a JSON document carries for a Go string: `json.Marshal`
"coerces" strings "to valid UTF-8, replacing invalid bytes with the Unicode
replacement rune" (package documentation).  Escaping in the document text is
undone by the decoder and is not represented. -/
def coerceUTF8 (s : GoString) : GoString := coerceFrom 0 s

/-- Well-formedness scan matching `coerceFrom`. -/
def validFrom : Nat → GoString → Bool
  | _, [] => true
  | k + 1, _ :: rest => validFrom k rest
  | 0, b :: rest =>
    match runeWidth (b :: rest) with
    | 0 => false
    | w + 1 => validFrom w rest

/-- The string is well-formed UTF-8 (`utf8.ValidString`). -/
def validUTF8 (s : GoString) : Bool := validFrom 0 s

/-- Byte-wise order of Go strings (operator `<`). -/
def strLess : GoString → GoString → Bool
  | [], [] => false
  | [], _ :: _ => true
  | _ :: _, [] => false
  | a :: s, b :: t => decide (a < b) || (a == b && strLess s t)

/-- Encoding of an `IndexItem` value: an object with the members of the
struct tags `image` and `score`. -/
def marshalItem (item : IndexItem) : JSON :=
  .obj [(lit "image", .str (coerceUTF8 item.Image)), (lit "score", .num item.Score)]

/-- Encoding of an `Index` value: an object whose member `terms` is an
object with one member per label, holding the array of that label's items.
The encoder writes the map keys in sorted order. -/
def marshalIndex (index : Index) : JSON :=
  .obj [(lit "terms",
    .obj ((SliceStable (fun a b => strLess a.1 b.1) index.Terms.entries).map
      (fun e => (coerceUTF8 e.1, .arr (e.2.map marshalItem)))))]

/-- Content of a file: the text of a JSON document, given by the value it
denotes, or text that is not JSON.  Printing a value and parsing the text
back is taken to be the identity; that is the part of `encoding/json` not
modelled. -/
inductive FileData where
  | json (doc : JSON)
  | malformed

/-- Library call `json.Marshal(index)` with its error result.  No `Index`
with finite scores fails to encode. -/
def Marshal (index : Index) : FileData × Option Unit :=
  (.json (marshalIndex index), none)

/-- Decoding of a JSON value into the string field `Image`: `null` leaves
the field as it is. -/
def decodeImage (item : IndexItem) : JSON → Except Unit IndexItem
  | .str s => .ok { item with Image := s }
  | .null => .ok item
  | _ => .error ()

/-- Decoding of a JSON value into the `float64` field `Score`. -/
def decodeScore (item : IndexItem) : JSON → Except Unit IndexItem
  | .num q => .ok { item with Score := q }
  | .null => .ok item
  | _ => .error ()

/-- Decoding of one member of an item object into the struct being filled. -/
def decodeItemField (item : IndexItem) (k : GoString) (v : JSON) : Except Unit IndexItem :=
  if k = lit "image" then decodeImage item v
  else if k = lit "score" then decodeScore item v
  else .ok item

/-- Members of an item object, in document order. -/
def decodeItemFields : List (GoString × JSON) → IndexItem → Except Unit IndexItem
  | [], item => .ok item
  | (k, v) :: rest, item =>
    match decodeItemField item k v with
    | .error e => .error e
    | .ok item1 => decodeItemFields rest item1

/-- Decoding of a JSON value into a fresh `IndexItem`. -/
def decodeItem : JSON → Except Unit IndexItem
  | .null => .ok { Image := [], Score := 0 }
  | .obj members => decodeItemFields members { Image := [], Score := 0 }
  | _ => .error ()

/-- Elements of a JSON array into a `[]IndexItem`. -/
def decodeItemList : List JSON → Except Unit (List IndexItem)
  | [] => .ok []
  | j :: rest =>
    match decodeItem j with
    | .error e => .error e
    | .ok item =>
      match decodeItemList rest with
      | .error e => .error e
      | .ok items => .ok (item :: items)

/-- Decoding of a JSON value into a fresh `[]IndexItem`. -/
def decodeItems : JSON → Except Unit (List IndexItem)
  | .null => .ok []
  | .arr elems => decodeItemList elems
  | _ => .error ()

/-- Members of the `terms` object, in document order, stored into the map. -/
def decodeTermMembers : List (GoString × JSON) → GoMap (List IndexItem) →
    Except Unit (GoMap (List IndexItem))
  | [], m => .ok m
  | (k, v) :: rest, m =>
    match decodeItems v with
    | .error e => .error e
    | .ok items => decodeTermMembers rest (m.set k items)

/-- Decoding of a JSON value into the field `Terms`. -/
def decodeTerms (m : GoMap (List IndexItem)) : JSON → Except Unit (GoMap (List IndexItem))
  | .null => .ok GoMap.empty
  | .obj members => decodeTermMembers members m
  | _ => .error ()

/-- Members of the top-level object, in document order. -/
def decodeIndexMembers : List (GoString × JSON) → Index → Except Unit Index
  | [], index => .ok index
  | (k, v) :: rest, index =>
    if k = lit "terms" then
      match decodeTerms index.Terms v with
      | .error e => .error e
      | .ok m => decodeIndexMembers rest { Terms := m }
    else decodeIndexMembers rest index

/-- Library call `json.Unmarshal(bytes, &index)` for `var index Index`.
Members with other names are skipped; a value of the wrong JSON type is an
error.  (The library also accepts member names that differ from the tag in
letter case; documents written by `SaveIndex` carry the exact names.) -/
def Unmarshal (data : FileData) : Except Unit Index :=
  match data with
  | .malformed => .error ()
  | .json .null => .ok { Terms := GoMap.empty }
  | .json (.obj members) => decodeIndexMembers members { Terms := GoMap.empty }
  | .json _ => .error ()

/-! ## Persistence (`main.go` lines 150-177) -/

/-- State of the file `./index.json`: absent, or its content. -/
abbrev FS := Option FileData

/-- Function `SaveIndex`.  The library call `ioutil.WriteFile` is the
argument `write`, giving the new file state and the error it returns.  The
source drops that result (`ioutil.WriteFile(...)` is a statement), so the
second `if err != nil` tests the error of `json.Marshal` again. -/
def SaveIndex (write : FileData → FS → FS × Option Unit) (index : Index) (fs : FS) :
    Except Abort FS :=
  match Marshal index with
  | (bytes, err) =>
    if err ≠ none then .error .fatal
    else
      let fs1 := (write bytes fs).1
      if err ≠ none then .error .fatal
      else .ok fs1

/-- Function `LoadIndex`: `ioutil.ReadFile` fails when the file is absent. -/
def LoadIndex (fs : FS) : Except Unit Index :=
  match fs with
  | none => .error ()
  | some bytes =>
    match Unmarshal bytes with
    | .error e => .error e
    | .ok index => .ok index

/-! ## List fetch and build (`main.go` lines 75-127) -/

/-- Library call `strings.Split(s, sep)` for a separator of one byte: the
pieces of `s` between the occurrences of `sep`, in order. -/
def Split (sep : Nat) : GoString → List GoString
  | [] => [[]]
  | c :: cs =>
    if c = sep then [] :: Split sep cs
    else
      match Split sep cs with
      | [] => [[c]]
      | piece :: pieces => (c :: piece) :: pieces

/-- The outside of the process during a build: the list server, the
classifier and the file write. -/
structure Env where
  /-- Body of the HTTP response for a list URL; `none` when `http.Get` or
  reading the body fails. -/
  httpGet : GoString → Option GoString
  /-- Decoded classifier response for an image reference, see `makeRequest`. -/
  post : GoString → Option (List (GoString × JSON))
  /-- Library call `ioutil.WriteFile` on `./index.json`. -/
  writeFile : FileData → FS → FS × Option Unit

/-- Function `getList`: fetch the list and split it at the byte `\n` (10). -/
def getList (env : Env) (url : GoString) : Except Abort (List GoString) :=
  match env.httpGet url with
  | none => .error .fatal
  | some body => .ok (Split 10 body)

/-- Function `rebuildIndex`; returns the index and the file state.  The
progress lines written to standard output are not part of the model. -/
def rebuildIndex (env : Env) (url : GoString) (fs : FS) : Except Abort (Index × FS) :=
  let list_url :=
    if url.length > 0 then url
    else lit "https://s3.amazonaws.com/clarifai-data/backend/api-take-home/images.txt"
  match getList env list_url with
  | .error e => .error e
  | .ok urls =>
    match buildPass (makeRequest env.post) urls { Terms := GoMap.empty } with
    | .error e => .error e
    | .ok built =>
      let index := built.sort
      match SaveIndex env.writeFile index fs with
      | .error e => .error e
      | .ok fs1 => .ok (index, fs1)

/-! ## The `search` command (`main.go` lines 42-58) -/

/-- Library call `strconv.Itoa` on a length. -/
def Itoa (n : Nat) : GoString := (Nat.toDigits 10 n).map Char.toNat

/-- Lower-casing of ASCII letters, the action of `strings.ToLower` on ASCII
strings. -/
def asciiToLower (s : GoString) : GoString :=
  s.map (fun b => if 65 ≤ b ∧ b ≤ 90 then b + 32 else b)

/-- Case `search` of `main`.  The library function `strings.ToLower` is the
argument `ToLower`.  The result holds the lines printed to standard output
and the value of the variable `index` at the end. -/
def searchCmd (ToLower : GoString → GoString) (searchTopic : GoString) (fs : FS) :
    Except Abort (List GoString × Index) :=
  let topic := ToLower searchTopic
  let line1 := lit "Search for " ++ topic
  match LoadIndex fs with
  | .error _ => .error .fatal
  | .ok index =>
    match index.Terms.get topic with
    | some terms =>
      .ok (line1 :: (lit "Found " ++ Itoa terms.length ++ lit " matches for " ++ topic)
        :: terms.map (fun item => item.Image), index)
    | none => .ok ([line1, lit "No images found matching that topic."], index)

/-! ## Specification predicates -/

/-- A list of items is sorted by score descending: the score at any position
is at least the score at any later position. -/
def SortedDesc (items : List IndexItem) : Prop :=
  ∀ (i j : Nat) (hij : i < j) (hj : j < items.length),
    (items.get ⟨j, hj⟩).Score ≤ (items.get ⟨i, lt_trans hij hj⟩).Score

/-- The entries of a list whose score equals `s`, in list order. -/
def withScore (s : ℚ) (items : List IndexItem) : List IndexItem :=
  items.filter (fun a => decide (a.Score = s))

/-- The entries a build over `refs` is to store under `label`: one entry per
match with that key, by reference and then by match. -/
def expectedEntries (stub : GoString → List Match) (refs : List GoString)
    (label : GoString) : List IndexItem :=
  refs.flatMap (fun ref =>
    ((stub ref).filter (fun m => decide (m.Key = label))).map
      (fun m => { Image := ref, Score := m.Score }))

/-- A list under a label after appending `new` entries to it, the list being
created by the first entry. -/
def appendTo (old : Option (List IndexItem)) : List IndexItem → Option (List IndexItem)
  | [] => old
  | a :: t => some (old.getD [] ++ a :: t)

/-- The match `m` is the one made from the concept `c` for the reference
`url`: `c` is an object whose `name` is the string `m.Key` and whose `value`
is the number `m.Score`, and `m.URL` is `url`. -/
def MatchOf (url : GoString) (c : JSON) (m : Match) : Prop :=
  ∃ fields, c = .obj fields ∧ mapIndex fields (lit "name") = .str m.Key ∧
    mapIndex fields (lit "value") = .num m.Score ∧ m.URL = url

/-- The item read back from the encoding of `item`. -/
def storedItem (item : IndexItem) : IndexItem :=
  { item with Image := coerceUTF8 item.Image }

/-- Every label and every image reference of the index is well-formed
UTF-8. -/
def Index.ValidUTF8 (index : Index) : Prop :=
  ∀ e ∈ index.Terms.entries, validUTF8 e.1 = true ∧ ∀ item ∈ e.2, validUTF8 item.Image = true

/-! ## Sample data -/

/-- Image reference `A`. -/
def imageA : GoString := lit "A"

/-- Image reference `B`. -/
def imageB : GoString := lit "B"

/-- A concept object of a classifier response. -/
def concept (name : String) (value : ℚ) : JSON :=
  .obj [(lit "name", .str (lit name)), (lit "value", .num value)]

/-- A decoded classifier response with the given value for `outputs[0].data`. -/
def response (data : List (GoString × JSON)) : List (GoString × JSON) :=
  [(lit "outputs", .arr [.obj [(lit "data", .obj data)]])]

/-- A classifier that knows two images and finds no concepts for any other
reference. -/
def samplePost (url : GoString) : Option (List (GoString × JSON)) :=
  if url = imageA then
    some (response [(lit "concepts", .arr [concept "dog" (9/10), concept "cat" (1/2)])])
  else if url = imageB then
    some (response [(lit "concepts", .arr [concept "dog" (95/100)])])
  else some (response [])

/-- An environment whose list is the text `A\nB\n` and whose file write
succeeds. -/
def sampleEnv : Env where
  httpGet := fun _ => some [65, 10, 66, 10]
  post := samplePost
  writeFile := fun bytes _ => (some bytes, none)

/-- The index built and sorted over the images `A` and `B`. -/
def sampleIndex : Index :=
  { Terms := ⟨[(lit "dog", [⟨imageB, 95/100⟩, ⟨imageA, 9/10⟩]),
               (lit "cat", [⟨imageA, 1/2⟩])], by decide⟩ }

/-- The same entries in insertion order. -/
def unsortedIndex : Index :=
  { Terms := ⟨[(lit "dog", [⟨imageA, 9/10⟩, ⟨imageB, 95/100⟩]),
               (lit "cat", [⟨imageA, 1/2⟩])], by decide⟩ }

/-- An index with two entries of equal score under one label. -/
def tiedIndex : Index :=
  { Terms := ⟨[(lit "x", [⟨imageA, 1/2⟩, ⟨imageB, 9/10⟩, ⟨lit "C", 1/2⟩])], by decide⟩ }

/-- A classifier stub: the matches of the sample images. -/
def sampleStub (url : GoString) : List Match :=
  if url = imageA then [⟨imageA, lit "dog", 9/10⟩, ⟨imageA, lit "cat", 1/2⟩]
  else if url = imageB then [⟨imageB, lit "dog", 95/100⟩]
  else []

/-- The file written by `SaveIndex` for the sample index. -/
def sampleFile : FS := some (.json (marshalIndex sampleIndex))

/-- The index `LoadIndex` reads from `sampleFile`. -/
def storedIndex : Index :=
  { Terms := ⟨[(lit "cat", [⟨imageA, 1/2⟩]),
               (lit "dog", [⟨imageB, 95/100⟩, ⟨imageA, 9/10⟩])], by decide⟩ }

/-- A file write that succeeds. -/
def writeOk (bytes : FileData) (_ : FS) : FS × Option Unit := (some bytes, none)

/-- An index with an image reference that is not UTF-8: the single byte FF. -/
def rawIndex : Index :=
  { Terms := ⟨[(lit "x", [⟨[0xFF], 1⟩])], by decide⟩ }

/-- The index read back after saving `rawIndex`: the byte is now U+FFFD. -/
def coercedIndex : Index :=
  { Terms := ⟨[(lit "x", [⟨[0xEF, 0xBF, 0xBD], 1⟩])], by decide⟩ }

/-! ## Lemmas on maps -/

theorem lookup_cons_ite {V : Type} (k1 k : GoString) (v1 : V) (rest : List (GoString × V)) :
    ((k1, v1) :: rest).lookup k = if k = k1 then some v1 else rest.lookup k := by
  by_cases h : k = k1
  · subst h; simp
  · have h1 : (k == k1) = false := by simpa using h
    simp [List.lookup, h1, h]

theorem lookup_assocSet {V : Type} (m : List (GoString × V)) (k k' : GoString) (v : V) :
    (assocSet m k v).lookup k' = if k' = k then some v else m.lookup k' := by
  induction m with
  | nil => simp [assocSet, lookup_cons_ite]
  | cons e rest ih =>
    obtain ⟨k1, v1⟩ := e
    by_cases hk : k1 = k
    · subst hk
      by_cases h : k' = k1 <;> simp [assocSet, lookup_cons_ite, h]
    · by_cases h : k' = k1
      · subst h
        simp [assocSet, hk, lookup_cons_ite]
      · simp [assocSet, hk, lookup_cons_ite, h, ih]

theorem GoMap.get_set {V : Type} (m : GoMap V) (k k' : GoString) (v : V) :
    (m.set k v).get k' = if k' = k then some v else m.get k' := by
  simp only [GoMap.get, GoMap.set, lookup_assocSet]

theorem GoMap.get_empty {V : Type} (k : GoString) : (GoMap.empty : GoMap V).get k = none := rfl

theorem lookup_eq_none_iff_keys {V : Type} (m : List (GoString × V)) (k : GoString) :
    m.lookup k = none ↔ ∀ e ∈ m, e.1 ≠ k := by
  induction m with
  | nil => simp
  | cons e rest ih =>
    obtain ⟨k1, v1⟩ := e
    by_cases h : k = k1
    · subst h
      simp [lookup_cons_ite]
    · have h2 : ¬ k1 = k := fun h3 => h h3.symm
      simp [lookup_cons_ite, h, ih, h2]

theorem lookup_of_mem_nodup {V : Type} (m : List (GoString × V)) (k : GoString) (v : V)
    (hnd : (m.map Prod.fst).Nodup) (h : (k, v) ∈ m) : m.lookup k = some v := by
  induction m with
  | nil => simp at h
  | cons e rest ih =>
    obtain ⟨k1, v1⟩ := e
    simp only [List.map_cons, List.nodup_cons] at hnd
    rcases List.mem_cons.1 h with heq | hmem
    · cases heq
      simp [lookup_cons_ite]
    · have hne : k ≠ k1 := by
        intro hk
        subst hk
        exact hnd.1 (List.mem_map.2 ⟨(k, v), hmem, rfl⟩)
      rw [lookup_cons_ite, if_neg hne]
      exact ih hnd.2 hmem

theorem assocSet_append_of_not_mem {V : Type} (a b : List (GoString × V)) (k : GoString)
    (v w : V) (h : k ∉ a.map Prod.fst) :
    assocSet (a ++ (k, v) :: b) k w = a ++ (k, w) :: b := by
  induction a with
  | nil => simp [assocSet]
  | cons e rest ih =>
    obtain ⟨k1, v1⟩ := e
    simp only [List.map_cons, List.mem_cons, not_or] at h
    have h1 : ¬ k1 = k := fun h3 => h.1 h3.symm
    have := ih h.2
    rw [List.cons_append, assocSet, if_neg h1, this, List.cons_append]

/-- Storing `f` of every value back under its own key, entry by entry,
rewrites the values in place. -/
theorem foldl_set_entries (f : List IndexItem → List IndexItem) :
    ∀ (es pre : List (GoString × List IndexItem)) (acc : Index),
      acc.Terms.entries = pre ++ es → ((pre ++ es).map Prod.fst).Nodup →
      (es.foldl (fun acc e => ({ Terms := acc.Terms.set e.1 (f e.2) } : Index)) acc).Terms.entries
        = pre ++ es.map (fun e => (e.1, f e.2)) := by
  intro es
  induction es with
  | nil => intro pre acc h _; simpa using h
  | cons e rest ih =>
    intro pre acc h hnd
    obtain ⟨k, v⟩ := e
    have hk : k ∉ pre.map Prod.fst := by
      intro hmem
      rw [List.map_append, List.nodup_append] at hnd
      exact hnd.2.2 hmem (by simp)
    have hstep : ({ Terms := acc.Terms.set k (f v) } : Index).Terms.entries
        = (pre ++ [(k, f v)]) ++ rest := by
      simp only [GoMap.set, h]
      rw [assocSet_append_of_not_mem pre rest k v (f v) hk]
      simp
    have hnd2 : (((pre ++ [(k, f v)]) ++ rest).map Prod.fst).Nodup := by
      simpa using hnd
    have := ih (pre ++ [(k, f v)]) _ hstep hnd2
    simpa using this

theorem Index.sort_entries (index : Index) :
    index.sort.Terms.entries
      = index.Terms.entries.map (fun e => (e.1, SliceStable scoreLess e.2)) := by
  have := foldl_set_entries (SliceStable scoreLess) index.Terms.entries [] index
    (by simp) (by simpa using index.Terms.nodup)
  simpa [Index.sort] using this

theorem lookup_map_values {V W : Type} (f : V → W) (m : List (GoString × V)) (k : GoString) :
    (m.map (fun e => (e.1, f e.2))).lookup k = (m.lookup k).map f := by
  induction m with
  | nil => simp
  | cons e rest ih =>
    obtain ⟨k1, v1⟩ := e
    by_cases h : k = k1
    · subst h; simp [lookup_cons_ite]
    · simp [lookup_cons_ite, h, ih]

theorem Index.sort_get (index : Index) (label : GoString) :
    index.sort.get label = (index.get label).map (SliceStable scoreLess) := by
  simp only [Index.get, GoMap.get, Index.sort_entries, lookup_map_values]

/-! ## Lemmas on the stable sort -/

theorem siftLeft_perm {α : Type} (less : α → α → Bool) (x : α) (l : List α) :
    (siftLeft less x l).Perm (x :: l) := by
  induction l with
  | nil => simp [siftLeft]
  | cons y before ih =>
    by_cases h : less x y = true
    · simp only [siftLeft, h, if_true]
      exact (List.Perm.cons y ih).trans (List.Perm.swap x y before)
    · simp only [siftLeft, h]
      exact List.Perm.refl _

theorem insertionSort_perm {α : Type} (less : α → α → Bool) (rest done : List α) :
    (insertionSort less done rest).Perm (done.reverse ++ rest) := by
  induction rest generalizing done with
  | nil => simp [insertionSort]
  | cons x rest ih =>
    simp only [insertionSort]
    refine (ih (siftLeft less x done)).trans ?_
    have h1 : (siftLeft less x done).reverse.Perm (x :: done) :=
      (List.reverse_perm _).trans (siftLeft_perm less x done)
    have h2 : (x :: done).Perm (done.reverse ++ [x]) :=
      ((List.perm_append_singleton x done.reverse).trans
        (List.Perm.cons x (List.reverse_perm done))).symm
    have h3 : (done.reverse ++ x :: rest) = (done.reverse ++ [x]) ++ rest := by simp
    rw [h3]
    exact List.Perm.append_right rest (h1.trans h2)

theorem SliceStable_perm {α : Type} (less : α → α → Bool) (x : List α) :
    (SliceStable less x).Perm x := by
  simpa [SliceStable] using insertionSort_perm less x []

theorem siftLeft_ascending (x : IndexItem) (done : List IndexItem)
    (h : done.Pairwise (fun a b => a.Score ≤ b.Score)) :
    (siftLeft scoreLess x done).Pairwise (fun a b => a.Score ≤ b.Score) := by
  induction done with
  | nil => simp [siftLeft]
  | cons y before ih =>
    rw [List.pairwise_cons] at h
    by_cases hlt : scoreLess x y = true
    · simp only [siftLeft, hlt, if_true, List.pairwise_cons]
      refine ⟨?_, ih h.2⟩
      intro a ha
      have hmem := (siftLeft_perm scoreLess x before).mem_iff.1 ha
      rcases List.mem_cons.1 hmem with rfl | hb
      · have : y.Score < a.Score := by simpa [scoreLess] using hlt
        exact le_of_lt this
      · exact h.1 a hb
    · have hxy : x.Score ≤ y.Score := by simpa [scoreLess] using hlt
      have hf : scoreLess x y = false := by simpa using hlt
      have hs : siftLeft scoreLess x (y :: before) = x :: y :: before := by
        simp [siftLeft, hf]
      rw [hs, List.pairwise_cons, List.pairwise_cons]
      refine ⟨?_, h.1, h.2⟩
      intro a ha
      rcases List.mem_cons.1 ha with rfl | hb
      · exact hxy
      · exact le_trans hxy (h.1 a hb)

theorem insertionSort_descending (rest done : List IndexItem)
    (h : done.Pairwise (fun a b => a.Score ≤ b.Score)) :
    (insertionSort scoreLess done rest).Pairwise (fun a b => b.Score ≤ a.Score) := by
  induction rest generalizing done with
  | nil => simpa [insertionSort, List.pairwise_reverse] using h
  | cons x rest ih =>
    simp only [insertionSort]
    exact ih _ (siftLeft_ascending x done h)

theorem SliceStable_descending (items : List IndexItem) :
    (SliceStable scoreLess items).Pairwise (fun a b => b.Score ≤ a.Score) :=
  insertionSort_descending items [] List.Pairwise.nil

theorem sortedDesc_iff_pairwise (items : List IndexItem) :
    SortedDesc items ↔ items.Pairwise (fun a b => b.Score ≤ a.Score) := by
  rw [List.pairwise_iff_get]
  constructor
  · intro h i j hij
    exact h i.1 j.1 hij j.2
  · intro h i j hij hj
    exact h ⟨i, lt_trans hij hj⟩ ⟨j, hj⟩ hij

theorem siftLeft_filter_neg {α : Type} (less : α → α → Bool) (p : α → Bool) (x : α)
    (l : List α) (hx : p x = false) : (siftLeft less x l).filter p = l.filter p := by
  induction l with
  | nil => simp [siftLeft, hx]
  | cons y before ih =>
    by_cases h : less x y = true
    · simp only [siftLeft, h, if_true, List.filter_cons, ih]
    · have hf : less x y = false := by simpa using h
      simp [siftLeft, hf, List.filter_cons, hx]

theorem siftLeft_filter_pos {α : Type} (less : α → α → Bool) (p : α → Bool) (x : α)
    (l : List α) (hx : p x = true) (hless : ∀ y, less x y = true → p y = false) :
    (siftLeft less x l).filter p = x :: l.filter p := by
  induction l with
  | nil => simp [siftLeft, hx]
  | cons y before ih =>
    by_cases h : less x y = true
    · simp only [siftLeft, h, if_true, List.filter_cons, ih, hless y h]
      simp
    · have hf : less x y = false := by simpa using h
      simp [siftLeft, hf, List.filter_cons, hx]

theorem insertionSort_withScore (s : ℚ) (rest done : List IndexItem) :
    withScore s (insertionSort scoreLess done rest)
      = (withScore s done).reverse ++ withScore s rest := by
  induction rest generalizing done with
  | nil => simp [insertionSort, withScore, List.filter_reverse]
  | cons x rest ih =>
    simp only [insertionSort]
    rw [ih]
    by_cases hx : x.Score = s
    · have hpos := siftLeft_filter_pos scoreLess (fun a => decide (a.Score = s)) x done
        (by simpa using hx)
        (by
          intro y hy
          have : y.Score < x.Score := by simpa [scoreLess] using hy
          have hne : y.Score ≠ s := by rw [← hx]; exact ne_of_lt this
          simpa using hne)
      simp only [withScore] at hpos ⊢
      rw [hpos]
      simp [List.filter_cons, hx]
    · have hneg := siftLeft_filter_neg scoreLess (fun a => decide (a.Score = s)) x done
        (by simpa using hx)
      simp only [withScore] at hneg ⊢
      rw [hneg]
      simp [List.filter_cons, hx]

theorem SliceStable_withScore (s : ℚ) (items : List IndexItem) :
    withScore s (SliceStable scoreLess items) = withScore s items := by
  simpa [SliceStable, withScore] using insertionSort_withScore s items []

theorem insertionSort_of_descending (rest done : List IndexItem)
    (h : (done.reverse ++ rest).Pairwise (fun a b => b.Score ≤ a.Score)) :
    insertionSort scoreLess done rest = done.reverse ++ rest := by
  induction rest generalizing done with
  | nil => simp [insertionSort]
  | cons x rest ih =>
    have hsift : siftLeft scoreLess x done = x :: done := by
      cases done with
      | nil => rfl
      | cons y before =>
        have hyx : x.Score ≤ y.Score := by
          rw [List.pairwise_append] at h
          exact h.2.2 y (by simp) x (by simp)
        have : scoreLess x y = false := by simpa [scoreLess] using hyx
        simp [siftLeft, this]
    simp only [insertionSort, hsift]
    rw [ih (x :: done) (by simpa using h)]
    simp

theorem SliceStable_of_descending (items : List IndexItem)
    (h : items.Pairwise (fun a b => b.Score ≤ a.Score)) :
    SliceStable scoreLess items = items := by
  simpa [SliceStable] using insertionSort_of_descending items [] (by simpa using h)

theorem SliceStable_idem (items : List IndexItem) :
    SliceStable scoreLess (SliceStable scoreLess items) = SliceStable scoreLess items :=
  SliceStable_of_descending _ (SliceStable_descending items)

theorem withScore_cons (s : ℚ) (a : IndexItem) (t : List IndexItem) :
    withScore s (a :: t) = if a.Score = s then a :: withScore s t else withScore s t := by
  by_cases h : a.Score = s <;> simp [withScore, List.filter_cons, h]

theorem mem_of_mem_withScore (s : ℚ) (a : IndexItem) (l : List IndexItem)
    (h : a ∈ withScore s l) : a ∈ l := by
  simp only [withScore, List.mem_filter] at h
  exact h.1

/-- A list that is sorted by score descending is determined by its equal-score
subsequences: two stable sorts of the same slice return the same list. -/
theorem stable_sort_unique (l1 l2 : List IndexItem)
    (h1 : l1.Pairwise (fun a b => b.Score ≤ a.Score))
    (h2 : l2.Pairwise (fun a b => b.Score ≤ a.Score))
    (h : ∀ s, withScore s l1 = withScore s l2) : l1 = l2 := by
  induction l1 generalizing l2 with
  | nil =>
    cases l2 with
    | nil => rfl
    | cons b u =>
      have := h b.Score
      simp [withScore_cons, withScore] at this
  | cons a t ih =>
    cases l2 with
    | nil =>
      have := h a.Score
      simp [withScore_cons, withScore] at this
    | cons b u =>
      rw [List.pairwise_cons] at h1 h2
      have ha : a ∈ b :: u := by
        apply mem_of_mem_withScore a.Score
        rw [← h a.Score, withScore_cons]
        simp
      have hb : b ∈ a :: t := by
        apply mem_of_mem_withScore b.Score
        rw [h b.Score, withScore_cons]
        simp
      have hab : a.Score ≤ b.Score := by
        rcases List.mem_cons.1 ha with rfl | hu
        · exact le_refl _
        · exact h2.1 a hu
      have hba : b.Score ≤ a.Score := by
        rcases List.mem_cons.1 hb with rfl | ht
        · exact le_refl _
        · exact h1.1 b ht
      have heq : b.Score = a.Score := le_antisymm hba hab
      have hhead := h a.Score
      rw [withScore_cons, withScore_cons, if_pos rfl, if_pos heq] at hhead
      have hab2 : a = b := (List.cons.inj hhead).1
      subst hab2
      congr 1
      apply ih u h1.2 h2.2
      intro s
      have hs := h s
      rw [withScore_cons, withScore_cons] at hs
      by_cases hsa : a.Score = s
      · rw [if_pos hsa, if_pos hsa] at hs
        exact (List.cons.inj hs).2
      · rw [if_neg hsa, if_neg hsa] at hs
        exact hs

/-- Any arrangement of `items` that meets the contract of a stable sort by
score descending is the list `SliceStable` returns. -/
theorem SliceStable_unique (items out : List IndexItem)
    (hsorted : out.Pairwise (fun a b => b.Score ≤ a.Score))
    (hstable : ∀ s, withScore s out = withScore s items) :
    out = SliceStable scoreLess items :=
  stable_sort_unique out (SliceStable scoreLess items) hsorted (SliceStable_descending items)
    (fun s => (hstable s).trans (SliceStable_withScore s items).symm)

/-! ## Lemmas on the build pass -/

theorem appendTo_append (old : Option (List IndexItem)) (a b : List IndexItem) :
    appendTo (appendTo old a) b = appendTo old (a ++ b) := by
  cases a with
  | nil => rfl
  | cons x t =>
    cases b with
    | nil => simp [appendTo]
    | cons y u => simp [appendTo]

theorem addMatch_get (url : GoString) (index : Index) (m : Match) (label : GoString) :
    (addMatch url index m).get label
      = if label = m.Key then some ((index.get label).getD [] ++ [⟨url, m.Score⟩])
        else index.get label := by
  by_cases hl : label = m.Key
  · subst hl
    cases hget : index.Terms.get m.Key with
    | none => simp [addMatch, Index.get, GoMap.get_set, hget]
    | some old => simp [addMatch, Index.get, GoMap.get_set, hget]
  · cases hget : index.Terms.get m.Key with
    | none => simp [addMatch, Index.get, GoMap.get_set, hget, hl]
    | some old => simp [addMatch, Index.get, GoMap.get_set, hget, hl]

theorem foldl_addMatch_get (url : GoString) (found : List Match) (index : Index)
    (label : GoString) :
    (found.foldl (addMatch url) index).get label
      = appendTo (index.get label)
          ((found.filter (fun m => decide (m.Key = label))).map
            (fun m => ({ Image := url, Score := m.Score } : IndexItem))) := by
  induction found generalizing index with
  | nil => rfl
  | cons m rest ih =>
    rw [List.foldl_cons, ih, addMatch_get]
    by_cases hl : label = m.Key
    · have hk : m.Key = label := hl.symm
      rw [if_pos hl]
      have : appendTo (index.get label) [⟨url, m.Score⟩]
          = some ((index.get label).getD [] ++ [⟨url, m.Score⟩]) := rfl
      rw [← this, appendTo_append]
      simp [List.filter_cons, hk]
    · have hk : ¬ m.Key = label := fun h => hl h.symm
      rw [if_neg hl]
      simp [List.filter_cons, hk]

theorem buildPass_stub (stub : GoString → List Match) (refs : List GoString) (index : Index) :
    ∃ built, buildPass (fun u => .ok (stub u)) refs index = .ok built ∧
      ∀ label, built.get label = appendTo (index.get label) (expectedEntries stub refs label) := by
  induction refs generalizing index with
  | nil => exact ⟨index, rfl, fun _ => rfl⟩
  | cons ref rest ih =>
    obtain ⟨built, hb, hget⟩ := ih ((stub ref).foldl (addMatch ref) index)
    refine ⟨built, ?_, ?_⟩
    · simpa [buildPass, BuildIndex] using hb
    · intro label
      rw [hget, foldl_addMatch_get, appendTo_append]
      simp [expectedEntries]

/-! ## Lemmas on the classifier response -/

theorem conceptLoop_ok (url : GoString) (concepts : List JSON) (found : List Match)
    (h : ∀ c ∈ concepts, ∃ fields name value, c = .obj fields ∧
      mapIndex fields (lit "name") = .str name ∧ mapIndex fields (lit "value") = .num value) :
    ∃ ms, conceptLoop url concepts found = .ok (found ++ ms) ∧
      List.Forall₂ (MatchOf url) concepts ms := by
  induction concepts generalizing found with
  | nil => exact ⟨[], by simp [conceptLoop], List.Forall₂.nil⟩
  | cons c rest ih =>
    obtain ⟨fields, name, value, hc, hname, hvalue⟩ := h c (by simp)
    obtain ⟨ms, hms, hall⟩ := ih (found ++ [{ URL := url, Key := name, Score := value }])
      (fun c2 hc2 => h c2 (List.mem_cons_of_mem c hc2))
    refine ⟨{ URL := url, Key := name, Score := value } :: ms, ?_, ?_⟩
    · subst hc
      simp only [conceptLoop, hvalue, hname, hms]
      simp
    · exact List.Forall₂.cons ⟨fields, hc, hname, hvalue, rfl⟩ hall

/-! ## Lemmas on `Split` -/

theorem Split_cons_shape (sep : Nat) (s : GoString) :
    ∃ piece pieces, Split sep s = piece :: pieces := by
  cases s with
  | nil => exact ⟨[], [], rfl⟩
  | cons c cs =>
    by_cases h : c = sep
    · exact ⟨[], Split sep cs, by simp [Split, h]⟩
    · cases hs : Split sep cs with
      | nil => exact ⟨[c], [], by simp [Split, h, hs]⟩
      | cons piece pieces => exact ⟨c :: piece, pieces, by simp [Split, h, hs]⟩

theorem Split_sep_cons (sep : Nat) (cs : GoString) :
    Split sep (sep :: cs) = [] :: Split sep cs := by
  simp [Split]

theorem Split_other_cons (sep c : Nat) (cs piece : GoString) (pieces : List GoString)
    (h : c ≠ sep) (hs : Split sep cs = piece :: pieces) :
    Split sep (c :: cs) = (c :: piece) :: pieces := by
  simp [Split, h, hs]

theorem Split_length (sep : Nat) (s : GoString) :
    (Split sep s).length = s.count sep + 1 := by
  induction s with
  | nil => rfl
  | cons c cs ih =>
    by_cases h : c = sep
    · subst h
      rw [Split_sep_cons, List.length_cons, ih, List.count_cons_self]
    · obtain ⟨piece, pieces, hs⟩ := Split_cons_shape sep cs
      rw [Split_other_cons sep c cs piece pieces h hs, List.count_cons_of_ne (Ne.symm h), ← ih, hs]
      rfl

theorem Split_no_sep (sep : Nat) (s : GoString) : ∀ piece ∈ Split sep s, sep ∉ piece := by
  induction s with
  | nil => intro piece hp; simp [Split] at hp; simp [hp]
  | cons c cs ih =>
    by_cases h : c = sep
    · subst h
      rw [Split_sep_cons]
      intro piece hp
      rcases List.mem_cons.1 hp with rfl | hp2
      · simp
      · exact ih piece hp2
    · obtain ⟨piece0, pieces, hs⟩ := Split_cons_shape sep cs
      rw [Split_other_cons sep c cs piece0 pieces h hs]
      rw [hs] at ih
      intro piece hp
      rcases List.mem_cons.1 hp with rfl | hp2
      · intro hmem
        rcases List.mem_cons.1 hmem with heq | hmem2
        · exact h heq.symm
        · exact ih piece0 (by simp) hmem2
      · exact ih piece (List.mem_cons_of_mem _ hp2)

theorem intercalate_cons_cons {α : Type} (sep x y : List α) (ys : List (List α)) :
    List.intercalate sep (x :: y :: ys) = x ++ sep ++ List.intercalate sep (y :: ys) := by
  simp [List.intercalate, List.intersperse]

theorem Split_intercalate (sep : Nat) (s : GoString) :
    List.intercalate [sep] (Split sep s) = s := by
  induction s with
  | nil => simp [Split, List.intercalate, List.intersperse]
  | cons c cs ih =>
    obtain ⟨piece, pieces, hs⟩ := Split_cons_shape sep cs
    by_cases h : c = sep
    · subst h
      rw [Split_sep_cons, hs, intercalate_cons_cons, ← hs, ih]
      rfl
    · rw [Split_other_cons sep c cs piece pieces h hs]
      rw [hs] at ih
      cases pieces with
      | nil =>
        have hp : piece = cs := by
          simpa [List.intercalate, List.intersperse] using ih
        simp [List.intercalate, List.intersperse, hp]
      | cons y ys =>
        rw [intercalate_cons_cons] at ih ⊢
        rw [← ih]
        simp

theorem Split_append_sep (sep : Nat) (s : GoString) :
    Split sep (s ++ [sep]) = Split sep s ++ [[]] := by
  induction s with
  | nil => simp [Split]
  | cons c cs ih =>
    by_cases h : c = sep
    · subst h
      rw [List.cons_append, Split_sep_cons, Split_sep_cons, ih]
      rfl
    · obtain ⟨piece, pieces, hs⟩ := Split_cons_shape sep cs
      rw [Split_other_cons sep c cs piece pieces h hs]
      rw [List.cons_append,
        Split_other_cons sep c (cs ++ [sep]) piece (pieces ++ [[]]) h (by rw [ih, hs]; rfl)]
      rfl

theorem buildPass_append (request : GoString → Except Abort (List Match))
    (a b : List GoString) (index : Index) :
    buildPass request (a ++ b) index =
      match buildPass request a index with
      | .error e => .error e
      | .ok index1 => buildPass request b index1 := by
  induction a generalizing index with
  | nil => rfl
  | cons url rest ih =>
    simp only [List.cons_append, buildPass]
    cases BuildIndex request url index with
    | error e => rfl
    | ok index1 => exact ih index1

/-! ## Lemmas on persistence -/

theorem coerceFrom_valid (s : GoString) (k : Nat) (h : validFrom k s = true) :
    coerceFrom k s = s := by
  induction s generalizing k with
  | nil => cases k <;> rfl
  | cons b rest ih =>
    cases k with
    | succ k =>
      simp only [validFrom] at h
      simp only [coerceFrom, ih k h]
    | zero =>
      simp only [validFrom] at h
      simp only [coerceFrom]
      cases hw : runeWidth (b :: rest) with
      | zero => rw [hw] at h; simp at h
      | succ w =>
        rw [hw] at h
        simp only at h ⊢
        rw [ih w h]

theorem coerceUTF8_valid (s : GoString) (h : validUTF8 s = true) : coerceUTF8 s = s :=
  coerceFrom_valid s 0 h

theorem decodeItem_marshalItem (item : IndexItem) :
    decodeItem (marshalItem item) = .ok (storedItem item) := by
  have h1 : lit "score" ≠ lit "image" := by decide
  simp [decodeItem, marshalItem, decodeItemFields, decodeItemField, decodeImage,
    decodeScore, h1, storedItem]

theorem decodeItemList_marshal (items : List IndexItem) :
    decodeItemList (items.map marshalItem) = .ok (items.map storedItem) := by
  induction items with
  | nil => rfl
  | cons item rest ih =>
    simp only [List.map_cons, decodeItemList, decodeItem_marshalItem, ih]

theorem decodeTermMembers_marshal (es : List (GoString × List IndexItem))
    (m : GoMap (List IndexItem)) :
    decodeTermMembers (es.map (fun e => (coerceUTF8 e.1, JSON.arr (e.2.map marshalItem)))) m
      = .ok (es.foldl (fun acc e => acc.set (coerceUTF8 e.1) (e.2.map storedItem)) m) := by
  induction es generalizing m with
  | nil => rfl
  | cons e rest ih =>
    simp only [List.map_cons, decodeTermMembers, decodeItems, decodeItemList_marshal,
      List.foldl_cons, ih]

theorem Unmarshal_marshalIndex (index : Index) :
    Unmarshal (.json (marshalIndex index)) = .ok
      { Terms := (SliceStable (fun a b => strLess a.1 b.1) index.Terms.entries).foldl
          (fun acc e => acc.set (coerceUTF8 e.1) (e.2.map storedItem)) GoMap.empty } := by
  simp only [Unmarshal, marshalIndex, decodeIndexMembers, if_true, decodeTerms,
    decodeTermMembers_marshal]

theorem mem_of_lookup {V : Type} (m : List (GoString × V)) (k : GoString) (v : V)
    (h : m.lookup k = some v) : (k, v) ∈ m := by
  induction m with
  | nil => simp at h
  | cons e rest ih =>
    obtain ⟨k1, v1⟩ := e
    rw [lookup_cons_ite] at h
    by_cases hk : k = k1
    · rw [if_pos hk] at h
      cases h
      simp [hk]
    · rw [if_neg hk] at h
      exact List.mem_cons_of_mem _ (ih h)

theorem lookup_perm {V : Type} (l1 l2 : List (GoString × V)) (k : GoString)
    (hp : l1.Perm l2) (hnd : (l1.map Prod.fst).Nodup) : l1.lookup k = l2.lookup k := by
  have hnd2 : (l2.map Prod.fst).Nodup := (hp.map Prod.fst).nodup_iff.1 hnd
  cases h : l1.lookup k with
  | none =>
    symm
    rw [lookup_eq_none_iff_keys] at h ⊢
    intro e he
    exact h e (hp.mem_iff.2 he)
  | some v =>
    symm
    exact lookup_of_mem_nodup l2 k v hnd2 (hp.mem_iff.1 (mem_of_lookup l1 k v h))

theorem foldl_set_get {V W : Type} (g : GoString → GoString) (f : V → W)
    (es : List (GoString × V)) (m : GoMap W) (label : GoString)
    (hnd : (es.map (fun e => g e.1)).Nodup) :
    (es.foldl (fun acc e => acc.set (g e.1) (f e.2)) m).get label
      = match (es.map (fun e => (g e.1, f e.2))).lookup label with
        | some v => some v
        | none => m.get label := by
  induction es generalizing m with
  | nil => rfl
  | cons e rest ih =>
    obtain ⟨k, v⟩ := e
    simp only [List.map_cons, List.nodup_cons] at hnd
    rw [List.foldl_cons, ih _ hnd.2, List.map_cons, lookup_cons_ite]
    by_cases hk : label = g k
    · have hnone : (rest.map (fun e => (g e.1, f e.2))).lookup label = none := by
        rw [lookup_eq_none_iff_keys]
        intro e he hek
        obtain ⟨e0, he0, rfl⟩ := List.mem_map.1 he
        apply hnd.1
        rw [← hk, ← hek]
        exact List.mem_map.2 ⟨e0, he0, rfl⟩
      rw [hnone, if_pos hk]
      simp [GoMap.get_set, hk]
    · rw [if_neg hk]
      cases (rest.map (fun e => (g e.1, f e.2))).lookup label with
      | some v2 => rfl
      | none => simp [GoMap.get_set, hk]

theorem LoadIndex_marshal_get (index : Index) (hvalid : index.ValidUTF8) :
    ∃ loaded, LoadIndex (some (.json (marshalIndex index))) = .ok loaded ∧
      ∀ label, loaded.get label = index.get label := by
  have hload : LoadIndex (some (.json (marshalIndex index))) = .ok
      { Terms := (SliceStable (fun a b => strLess a.1 b.1) index.Terms.entries).foldl
          (fun acc e => acc.set (coerceUTF8 e.1) (e.2.map storedItem)) GoMap.empty } := by
    simp only [LoadIndex, Unmarshal_marshalIndex]
  refine ⟨_, hload, ?_⟩
  intro label
  have hperm := SliceStable_perm (fun a b : GoString × List IndexItem => strLess a.1 b.1)
    index.Terms.entries
  have hkeys : ∀ e ∈ SliceStable (fun a b : GoString × List IndexItem => strLess a.1 b.1)
      index.Terms.entries, coerceUTF8 e.1 = e.1 := fun e he =>
    coerceUTF8_valid e.1 (hvalid e (hperm.mem_iff.1 he)).1
  have hnd : ((SliceStable (fun a b : GoString × List IndexItem => strLess a.1 b.1)
      index.Terms.entries).map (fun e => coerceUTF8 e.1)).Nodup := by
    rw [List.map_congr_left hkeys]
    exact ((hperm.map Prod.fst).nodup_iff).2 index.Terms.nodup
  have hmap : (SliceStable (fun a b : GoString × List IndexItem => strLess a.1 b.1)
      index.Terms.entries).map (fun e => (coerceUTF8 e.1, e.2.map storedItem))
      = (SliceStable (fun a b : GoString × List IndexItem => strLess a.1 b.1)
      index.Terms.entries).map (fun e => (e.1, (fun items => items.map storedItem) e.2)) :=
    List.map_congr_left (fun e he => by rw [hkeys e he])
  show GoMap.get _ label = _
  rw [foldl_set_get coerceUTF8 (fun items => items.map storedItem) _ _ label hnd, hmap,
    lookup_map_values,
    ← lookup_perm _ _ label hperm.symm index.Terms.nodup]
  simp only [Index.get, GoMap.get, GoMap.empty]
  cases hl : index.Terms.entries.lookup label with
  | none => rfl
  | some items =>
    have hitems := (hvalid _ (mem_of_lookup _ _ _ hl)).2
    have : items.map storedItem = items := by
      conv_rhs => rw [← List.map_id items]
      apply List.map_congr_left
      intro item hitem
      simp only [storedItem, coerceUTF8_valid item.Image (hitems item hitem), id]
    simp [this]

theorem Index.ext_entries (a b : Index) (h : a.Terms.entries = b.Terms.entries) : a = b := by
  obtain ⟨⟨ea, _⟩⟩ := a
  obtain ⟨⟨eb, _⟩⟩ := b
  simp only at h
  subst h
  rfl

theorem rebuildIndex_sorted (env : Env) (url : GoString) (fs fs1 : FS) (index : Index)
    (h : rebuildIndex env url fs = .ok (index, fs1)) : ∃ built : Index, index = built.sort := by
  simp only [rebuildIndex] at h
  split at h
  · exact absurd h (by simp)
  · split at h
    · exact absurd h (by simp)
    · rename_i built _
      split at h
      · exact absurd h (by simp)
      · simp only [Except.ok.injEq, Prod.mk.injEq] at h
        exact ⟨built, h.1.symm⟩

/-! ## Specified properties -/

/-- C1: after `Index.sort` every label's list is sorted by score descending
(for positions `i < j` the score at `i` is at least the score at `j`), and the
same holds for every list of the index returned by `rebuildIndex`. -/
theorem sort_sorted_desc :
    (∀ (index : Index) (label : GoString) (items : List IndexItem),
      index.sort.get label = some items → SortedDesc items) ∧
    (∀ (env : Env) (url : GoString) (fs fs1 : FS) (index : Index),
      rebuildIndex env url fs = .ok (index, fs1) →
      ∀ (label : GoString) (items : List IndexItem),
        index.get label = some items → SortedDesc items) := by
  have key : ∀ (index : Index) (label : GoString) (items : List IndexItem),
      index.sort.get label = some items → SortedDesc items := by
    intro index label items h
    rw [Index.sort_get] at h
    cases hget : index.get label with
    | none => rw [hget] at h; simp at h
    | some raw =>
      rw [hget] at h
      simp only [Option.map_some', Option.some.injEq] at h
      rw [← h, sortedDesc_iff_pairwise]
      exact SliceStable_descending raw
  refine ⟨key, ?_⟩
  intro env url fs fs1 index h label items hget
  obtain ⟨built, rfl⟩ := rebuildIndex_sorted env url fs fs1 index h
  exact key built label items hget

/-- Witness of C1: the sorted sample index, and the index `rebuildIndex`
returns in the sample environment. -/
theorem sort_sorted_desc_witness :
    SortedDesc [⟨imageB, 95/100⟩, ⟨imageA, 9/10⟩] ∧ SortedDesc [⟨imageA, 1/2⟩] :=
  ⟨sort_sorted_desc.1 unsortedIndex (lit "dog") _ (by decide!),
   sort_sorted_desc.2 sampleEnv [] none (some (.json (marshalIndex sampleIndex))) sampleIndex
     (by with_unfolding_all rfl) (lit "cat") _ (by decide!)⟩

/-- C2: `Index.sort` keeps the labels, and each label's list after the sort
is a permutation of the list before it in which, for every score `s`, the
entries of score `s` appear in their original order. -/
theorem sort_stable (index : Index) (label : GoString) :
    (index.sort.get label = none ↔ index.get label = none) ∧
    ∀ (items sorted : List IndexItem),
      index.get label = some items → index.sort.get label = some sorted →
      sorted.Perm items ∧ ∀ s : ℚ, withScore s sorted = withScore s items := by
  rw [Index.sort_get]
  constructor
  · simp
  · intro items sorted hitems hsorted
    rw [hitems] at hsorted
    simp only [Option.map_some', Option.some.injEq] at hsorted
    subst hsorted
    exact ⟨SliceStable_perm scoreLess items, fun s => SliceStable_withScore s items⟩

/-- Witness of C2: the two entries of score 1/2 keep their order. -/
theorem sort_stable_witness :
    ([⟨imageB, 9/10⟩, ⟨imageA, 1/2⟩, ⟨lit "C", 1/2⟩] : List IndexItem).Perm
        [⟨imageA, 1/2⟩, ⟨imageB, 9/10⟩, ⟨lit "C", 1/2⟩] ∧
      ∀ s : ℚ, withScore s [⟨imageB, 9/10⟩, ⟨imageA, 1/2⟩, ⟨lit "C", 1/2⟩]
        = withScore s [⟨imageA, 1/2⟩, ⟨imageB, 9/10⟩, ⟨lit "C", 1/2⟩] :=
  (sort_stable tiedIndex (lit "x")).2 _ _ (by decide!) (by decide!)

/-- C8: `Index.sort` is idempotent: sorting a sorted index returns the same
index. -/
theorem sort_idempotent (index : Index) : index.sort.sort = index.sort := by
  apply Index.ext_entries
  rw [Index.sort_entries, Index.sort_entries, List.map_map]
  apply List.map_congr_left
  intro e _
  simp only [Function.comp, SliceStable_idem]

/-- C3: with the classifier a stub from references to match lists, the build
pass from the empty index returns an index in which the list under a label is
exactly one entry (reference, score) per match with that key, by reference and
then by match, and a label is a key exactly when some reference has a match
with it; one `BuildIndex` call leaves the lists of the labels it does not
receive unchanged; and the sample build over `A`, `B`, once sorted, has
`dog` = [(B, 0.95), (A, 0.9)] and `cat` = [(A, 0.5)]. -/
theorem build_folds_matches (stub : GoString → List Match) (refs : List GoString) :
    (∃ built : Index,
      buildPass (fun u => .ok (stub u)) refs { Terms := GoMap.empty } = .ok built ∧
      (∀ label, built.get label =
        if expectedEntries stub refs label = [] then none
        else some (expectedEntries stub refs label)) ∧
      (∀ label, built.get label ≠ none ↔ ∃ ref ∈ refs, ∃ m ∈ stub ref, m.Key = label)) ∧
    (∀ (index : Index) (url label : GoString), (∀ m ∈ stub url, m.Key ≠ label) →
      ∃ index1, BuildIndex (fun u => .ok (stub u)) url index = .ok index1 ∧
        index1.get label = index.get label) ∧
    (∃ built : Index,
      buildPass (fun u => .ok (sampleStub u)) [imageA, imageB] { Terms := GoMap.empty }
        = .ok built ∧
      built.sort.get (lit "dog") = some [⟨imageB, 95/100⟩, ⟨imageA, 9/10⟩] ∧
      built.sort.get (lit "cat") = some [⟨imageA, 1/2⟩]) := by
  refine ⟨?_, ?_, ?_⟩
  · obtain ⟨built, hb, hget⟩ := buildPass_stub stub refs { Terms := GoMap.empty }
    have hget2 : ∀ label, built.get label =
        if expectedEntries stub refs label = [] then none
        else some (expectedEntries stub refs label) := by
      intro label
      rw [hget]
      cases hexp : expectedEntries stub refs label with
      | nil => simp [appendTo, Index.get, GoMap.get_empty]
      | cons a t => simp [appendTo, Index.get, GoMap.get_empty]
    refine ⟨built, hb, hget2, ?_⟩
    intro label
    rw [hget2]
    have hne : expectedEntries stub refs label ≠ [] ↔
        ∃ ref ∈ refs, ∃ m ∈ stub ref, m.Key = label := by
      simp only [expectedEntries, ne_eq, List.flatMap_eq_nil_iff, List.map_eq_nil_iff,
        List.filter_eq_nil_iff, decide_eq_true_eq, not_forall, not_not]
      constructor
      · rintro ⟨ref, href, m, hm, hk⟩
        exact ⟨ref, href, m, hm, hk⟩
      · rintro ⟨ref, href, m, hm, hk⟩
        exact ⟨ref, href, m, hm, hk⟩
    rw [← hne]
    by_cases h : expectedEntries stub refs label = [] <;> simp [h]
  · intro index url label hkeys
    refine ⟨(stub url).foldl (addMatch url) index, rfl, ?_⟩
    rw [foldl_addMatch_get]
    have : (stub url).filter (fun m => decide (m.Key = label)) = [] := by
      rw [List.filter_eq_nil_iff]
      intro m hm
      simpa using hkeys m hm
    rw [this]
    rfl
  · exact ⟨unsortedIndex, by with_unfolding_all rfl, by decide!, by decide!⟩

/-- Witness of C3: the matches of image `B` do not name `cat`, and indexing
`B` leaves the list of `cat` unchanged. -/
theorem build_folds_matches_witness :
    (∀ m ∈ sampleStub imageB, m.Key ≠ lit "cat") ∧
    ∃ index1, BuildIndex (fun u => .ok (sampleStub u)) imageB unsortedIndex = .ok index1 ∧
      index1.get (lit "cat") = unsortedIndex.get (lit "cat") :=
  ⟨by decide!,
   (build_folds_matches sampleStub [imageA, imageB]).2.1 unsortedIndex imageB (lit "cat")
     (by decide!)⟩

/-- C6: when the decoded response has an object at `outputs[0].data` whose
`concepts` member is absent or not an array, `makeRequest` returns the empty
match list, `BuildIndex` returns the index unchanged, and the build pass goes
on with the remaining references. -/
theorem no_concepts_no_entries (post : GoString → Option (List (GoString × JSON)))
    (url : GoString) (result outputs_0 data : List (GoString × JSON)) (others : List JSON)
    (hpost : post url = some result)
    (houtputs : mapIndex result (lit "outputs") = .arr (.obj outputs_0 :: others))
    (hdata : mapIndex outputs_0 (lit "data") = .obj data)
    (hconcepts : ∀ concepts, mapIndex data (lit "concepts") ≠ .arr concepts) :
    makeRequest post url = .ok [] ∧
    ∀ index : Index,
      BuildIndex (makeRequest post) url index = .ok index ∧
      ∀ rest : List GoString,
        buildPass (makeRequest post) (url :: rest) index
          = buildPass (makeRequest post) rest index := by
  have hreq : makeRequest post url = .ok [] := by
    simp only [makeRequest, hpost, extractMatches, houtputs]
    rw [hdata]
    show (match mapIndex data (lit "concepts") with
      | .arr concepts => conceptLoop url concepts []
      | _ => Except.ok []) = Except.ok []
    cases hc : mapIndex data (lit "concepts") with
    | arr concepts => exact absurd hc (hconcepts concepts)
    | _ => rfl
  refine ⟨hreq, fun index => ?_⟩
  have hbuild : BuildIndex (makeRequest post) url index = .ok index := by
    simp [BuildIndex, hreq]
  exact ⟨hbuild, fun rest => by simp [buildPass, hbuild]⟩

/-- Witness of C6: the sample classifier answers the empty reference with a
`data` object that has no `concepts`. -/
theorem no_concepts_no_entries_witness :
    makeRequest samplePost [] = .ok [] ∧
    ∀ index : Index,
      BuildIndex (makeRequest samplePost) [] index = .ok index ∧
      ∀ rest : List GoString,
        buildPass (makeRequest samplePost) ([] :: rest) index
          = buildPass (makeRequest samplePost) rest index :=
  no_concepts_no_entries samplePost [] (response []) [(lit "data", .obj [])] [] []
    (by with_unfolding_all rfl) (by with_unfolding_all rfl) (by with_unfolding_all rfl)
    (by intro concepts h; simp [mapIndex] at h)

/-- C9: when `outputs[0].data.concepts` of the decoded response is an array
of objects that each have a string `name` and a numeric `value`,
`makeRequest` returns one match per concept, in the order of the array, the
match of a concept having its name as `Key`, its value as `Score` and the
reference as `URL`. -/
theorem one_match_per_concept (post : GoString → Option (List (GoString × JSON)))
    (url : GoString) (result outputs_0 data : List (GoString × JSON))
    (others concepts : List JSON)
    (hpost : post url = some result)
    (houtputs : mapIndex result (lit "outputs") = .arr (.obj outputs_0 :: others))
    (hdata : mapIndex outputs_0 (lit "data") = .obj data)
    (hconcepts : mapIndex data (lit "concepts") = .arr concepts)
    (hshape : ∀ c ∈ concepts, ∃ fields name value, c = .obj fields ∧
      mapIndex fields (lit "name") = .str name ∧
      mapIndex fields (lit "value") = .num value) :
    ∃ ms : List Match, makeRequest post url = .ok ms ∧ ms.length = concepts.length ∧
      List.Forall₂ (MatchOf url) concepts ms := by
  obtain ⟨ms, hms, hall⟩ := conceptLoop_ok url concepts [] hshape
  refine ⟨ms, ?_, hall.length_eq.symm, hall⟩
  simp only [makeRequest, hpost, extractMatches, houtputs, hdata, hconcepts, hms]
  simp

/-- Witness of C9: the response of the sample classifier for image `A`. -/
theorem one_match_per_concept_witness :
    ∃ ms : List Match, makeRequest samplePost imageA = .ok ms ∧ ms.length = 2 ∧
      List.Forall₂ (MatchOf imageA) [concept "dog" (9/10), concept "cat" (1/2)] ms :=
  one_match_per_concept samplePost imageA
    (response [(lit "concepts", .arr [concept "dog" (9/10), concept "cat" (1/2)])])
    [(lit "data", .obj [(lit "concepts", .arr [concept "dog" (9/10), concept "cat" (1/2)])])]
    [(lit "concepts", .arr [concept "dog" (9/10), concept "cat" (1/2)])] []
    [concept "dog" (9/10), concept "cat" (1/2)]
    (by with_unfolding_all rfl) (by with_unfolding_all rfl) (by with_unfolding_all rfl)
    (by with_unfolding_all rfl)
    (by
      intro c hc
      simp only [List.mem_cons, List.mem_singleton, List.not_mem_nil, or_false] at hc
      rcases hc with rfl | rfl
      · exact ⟨_, lit "dog", 9/10, rfl, by with_unfolding_all rfl, by with_unfolding_all rfl⟩
      · exact ⟨_, lit "cat", 1/2, rfl, by with_unfolding_all rfl, by with_unfolding_all rfl⟩)

/-- C10: `getList` returns the fetched text split at every newline byte:
the number of pieces is the number of newlines plus one, no piece contains a
newline, the pieces joined by newlines are the text, and `rebuildIndex` runs
the build pass over all of them; when the text ends with a newline the last
piece is the empty string, and the build pass ends with `BuildIndex` on that
empty reference. -/
theorem getList_splits_lines (body : GoString) :
    (∀ (env : Env) (url : GoString), env.httpGet url = some body →
      getList env url = .ok (Split 10 body)) ∧
    (Split 10 body).length = body.count 10 + 1 ∧
    (∀ piece ∈ Split 10 body, 10 ∉ piece) ∧
    List.intercalate [10] (Split 10 body) = body ∧
    (∀ (env : Env) (url : GoString) (fs : FS), 0 < url.length → env.httpGet url = some body →
      rebuildIndex env url fs =
        match buildPass (makeRequest env.post) (Split 10 body) { Terms := GoMap.empty } with
        | .error e => .error e
        | .ok built =>
          match SaveIndex env.writeFile built.sort fs with
          | .error e => .error e
          | .ok fs1 => .ok (built.sort, fs1)) ∧
    (∀ init : GoString, body = init ++ [10] →
      (Split 10 body).getLast? = some [] ∧
      ∀ (request : GoString → Except Abort (List Match)) (index : Index),
        buildPass request (Split 10 body) index =
          match buildPass request (Split 10 init) index with
          | .error e => .error e
          | .ok index1 => BuildIndex request [] index1) := by
  refine ⟨?_, Split_length 10 body, Split_no_sep 10 body, Split_intercalate 10 body, ?_, ?_⟩
  · intro env url h
    simp [getList, h]
  · intro env url fs hlen h
    simp only [rebuildIndex, hlen, if_true, getList, h]
  · intro init hbody
    subst hbody
    rw [Split_append_sep]
    refine ⟨by simp, ?_⟩
    intro request index
    rw [buildPass_append]
    cases buildPass request (Split 10 init) index with
    | error e => rfl
    | ok index1 =>
      simp only [buildPass]
      cases BuildIndex request [] index1 <;> rfl

/-- Witness of C10: the sample list `A\nB\n` has the pieces `A`, `B` and the
empty string. -/
theorem getList_splits_lines_witness :
    getList sampleEnv (lit "u") = .ok [[65], [66], []] ∧
    (Split 10 [65, 10, 66, 10]).getLast? = some [] ∧
    rebuildIndex sampleEnv (lit "u") none =
      match buildPass (makeRequest sampleEnv.post) (Split 10 [65, 10, 66, 10])
          { Terms := GoMap.empty } with
      | .error e => .error e
      | .ok built =>
        match SaveIndex sampleEnv.writeFile built.sort none with
        | .error e => .error e
        | .ok fs1 => .ok (built.sort, fs1) :=
  ⟨(getList_splits_lines [65, 10, 66, 10]).1 sampleEnv (lit "u") rfl,
   ((getList_splits_lines [65, 10, 66, 10]).2.2.2.2.2 [65, 10, 66] rfl).1,
   (getList_splits_lines [65, 10, 66, 10]).2.2.2.2.1 sampleEnv (lit "u") none
     (by decide) rfl⟩

/-- C5: with the index loaded, the search command looks up the lower-cased
topic as it is.  When a label equal to that key is stored it prints the count
and the images of that label's list in stored order; when no stored label is
equal to the key it prints the not-found line and ends normally.  The index
is the loaded one in both cases. -/
theorem search_exact_lookup (ToLower : GoString → GoString) (searchTopic : GoString)
    (fs : FS) (index : Index) (hload : LoadIndex fs = .ok index) :
    (∀ terms : List IndexItem, (ToLower searchTopic, terms) ∈ index.Terms.entries →
      searchCmd ToLower searchTopic fs = .ok
        ((lit "Search for " ++ ToLower searchTopic)
          :: (lit "Found " ++ Itoa terms.length ++ lit " matches for " ++ ToLower searchTopic)
          :: terms.map (fun item => item.Image), index)) ∧
    ((∀ e ∈ index.Terms.entries, e.1 ≠ ToLower searchTopic) →
      searchCmd ToLower searchTopic fs = .ok
        ([lit "Search for " ++ ToLower searchTopic,
          lit "No images found matching that topic."], index)) := by
  constructor
  · intro terms hmem
    have hget : index.Terms.get (ToLower searchTopic) = some terms :=
      lookup_of_mem_nodup _ _ _ index.Terms.nodup hmem
    simp only [searchCmd, hload, hget]
  · intro hnone
    have hget : index.Terms.get (ToLower searchTopic) = none :=
      (lookup_eq_none_iff_keys _ _).2 hnone
    simp only [searchCmd, hload, hget]

/-- Witness of C5: on the stored sample index the topic `DOG` finds the two
images of `dog`, and the topic `do`, a proper part of a stored label, finds
nothing. -/
theorem search_exact_lookup_witness :
    searchCmd asciiToLower (lit "DOG") sampleFile = .ok
      ([lit "Search for dog", lit "Found 2 matches for dog", imageB, imageA], storedIndex) ∧
    searchCmd asciiToLower (lit "do") sampleFile = .ok
      ([lit "Search for do", lit "No images found matching that topic."], storedIndex) :=
  ⟨by
    with_unfolding_all exact
      (search_exact_lookup asciiToLower (lit "DOG") sampleFile storedIndex
        (by with_unfolding_all rfl)).1 [⟨imageB, 95/100⟩, ⟨imageA, 9/10⟩] (by decide!),
   by
    with_unfolding_all exact
      (search_exact_lookup asciiToLower (lit "do") sampleFile storedIndex
        (by with_unfolding_all rfl)).2 (by decide!)⟩

/-- C7, the code at the failing input: whatever `ioutil.WriteFile` returns,
also an error, `SaveIndex` returns normally with the file state the write
left. -/
theorem saveIndex_ignores_write_error (write : FileData → FS → FS × Option Unit)
    (index : Index) (fs : FS) :
    SaveIndex write index fs = .ok (write (.json (marshalIndex index)) fs).1 ∧
    SaveIndex (fun _ fs0 => (fs0, some ())) { Terms := GoMap.empty } none = .ok none := by
  constructor <;> simp [SaveIndex, Marshal]

/-- C4, counterexample: the index `rawIndex` holds an image reference that
is the single byte FF.  Saving it succeeds, loading the file succeeds, and the
index read back holds the three bytes of U+FFFD in its place: it is not the
index that was saved. -/
theorem roundtrip_changes_invalid_utf8 :
    SaveIndex writeOk rawIndex none = .ok (some (.json (marshalIndex rawIndex))) ∧
    LoadIndex (some (.json (marshalIndex rawIndex))) = .ok coercedIndex ∧
    rawIndex.get (lit "x") = some [⟨[0xFF], 1⟩] ∧
    coercedIndex.get (lit "x") = some [⟨[0xEF, 0xBF, 0xBD], 1⟩] ∧
    ¬ (∀ label, coercedIndex.get label = rawIndex.get label) := by
  refine ⟨by with_unfolding_all rfl, by with_unfolding_all rfl, by decide!, by decide!, ?_⟩
  intro h
  exact absurd (h (lit "x")) (by decide!)

/-- C4, amended: for every index whose labels and image references are
well-formed UTF-8, when the file write succeeds `SaveIndex` returns normally
and `LoadIndex` on the written file returns, without error, an index with the
same labels and under each label the same entries in the same order. -/
theorem roundtrip_valid_utf8 (write : FileData → FS → FS × Option Unit) (index : Index)
    (fs : FS) (hvalid : index.ValidUTF8)
    (hwrite : write (Marshal index).1 fs = (some (Marshal index).1, none)) :
    ∃ (fs1 : FS) (loaded : Index), SaveIndex write index fs = .ok fs1 ∧
      LoadIndex fs1 = .ok loaded ∧ ∀ label, loaded.get label = index.get label := by
  obtain ⟨loaded, hload, hget⟩ := LoadIndex_marshal_get index hvalid
  refine ⟨some (.json (marshalIndex index)), loaded, ?_, hload, hget⟩
  simp only [Marshal] at hwrite
  simp [SaveIndex, Marshal, hwrite]

/-- Witness of the amended C4: the sample index is read back as saved. -/
theorem roundtrip_valid_utf8_witness :
    ∃ (fs1 : FS) (loaded : Index), SaveIndex writeOk sampleIndex none = .ok fs1 ∧
      LoadIndex fs1 = .ok loaded ∧ ∀ label, loaded.get label = sampleIndex.get label :=
  roundtrip_valid_utf8 writeOk sampleIndex none
    (by
      show ∀ e ∈ sampleIndex.Terms.entries,
        validUTF8 e.1 = true ∧ ∀ item ∈ e.2, validUTF8 item.Image = true
      decide!)
    rfl

end ImageSearch
